import Mathlib

/-!
# Verification of the Scallop core engine specification

Shallow embedding of the parts of the Scallop core engine
(`src/core`) needed to settle the frozen claims: the constant
declaration analysis, the boundness analysis contexts, the aggregation
analysis, the RAM dataflow AST, the top-bottom-k-clauses provenance
aggregators, the untagged-vector dataflow, and the `fib` foreign
function from the integration tests.

Rust machine integers are modelled as `Int`/`Nat` (the claims under
study never exercise overflow), hash sets and btree sets of strings as
`Finset String`, `Result`/panics as `Except`/`Option`.
-/

namespace Scallop

/-- Source location (`Loc`); carried on AST nodes, used only as
diagnostic payload, so a bare index suffices. -/
abbrev Loc := Nat

/-- `AstNode<N>` from the front AST: a node together with its location. -/
structure AstNode (N : Type) where
  loc : Loc
  node : N
deriving DecidableEq, Repr

/-! ## Constant declaration analysis (`compiler/front/analyzers/constant_decl.rs`) -/

/-- `ConstantNode` from the front AST (payload of a `Constant`). -/
inductive ConstantNode where
  | integer (i : Int)
  | boolean (b : Bool)
  | str (s : String)
deriving DecidableEq, Repr

/-- `Constant`: an AST node wrapping a `ConstantNode`. -/
abbrev Constant := AstNode ConstantNode

/-- `Constant::integer(i)`: build an integer constant (default location). -/
def Constant.integer (i : Int) : Constant := ⟨0, .integer i⟩

/-- Front `Type`: only `usize` is produced by the code under study;
other named types are collapsed into `named`. -/
inductive FrontType where
  | usize
  | named (n : String)
deriving DecidableEq, Repr

/-- `EnumTypeMember`: one member of an enum type declaration, with its
name, location, and optional assigned constant
(`member.assigned_number()` returns the assignment when present). -/
structure EnumTypeMember where
  name : String
  loc : Loc
  assigned_number : Option Constant
deriving DecidableEq, Repr

/-- `EnumTypeDecl`: an enum type declaration (name and members). -/
structure EnumTypeDecl where
  name : String
  members : List EnumTypeMember
deriving DecidableEq, Repr

/-- `ConstantDeclError` from `constant_decl.rs`. -/
inductive ConstantDeclError where
  | DuplicatedConstant (name : String) (first_decl second_decl : Loc)
  | ConstantVarInBinding (name : String) (const_var_decl var_binding : Loc)
  | UnknownConstantVariable (name : String) (loc : Loc)
  | EnumIDAlreadyAssigned (curr_name : String) (id : Int) (loc : Loc)
deriving DecidableEq, Repr

/-- `ConstantDeclAnalysis`: the `variables` map from constant names to
(declaration location, optional type, constant value), modelled as an
association list (the Rust `HashMap` is only queried point-wise); the
field is called `vars` because `variables` is a Lean keyword. -/
structure ConstantDeclAnalysis where
  vars : List (String × Loc × Option FrontType × Constant)
deriving DecidableEq, Repr

/-- `ConstantDeclAnalysis::get_variable` (lookup in `variables`). -/
def ConstantDeclAnalysis.get_variable (a : ConstantDeclAnalysis) (name : String) :
    Option (Loc × Option FrontType × Constant) :=
  (a.vars.find? (fun e => e.1 = name)).map (·.2)

/-- The `extract_value` closure of
`ConstantDeclAnalysis::process_enum_type_decl`: compute the id of a
member given the previous maximum id (`None` for the first member). -/
def extract_value (member : EnumTypeMember) (prev_max : Option Int) :
    Except ConstantDeclError Int :=
  let incr : Except ConstantDeclError Int :=
    match prev_max with
    | some pm => .ok (pm + 1)
    | none => .ok 0
  match member.assigned_number with
  | some c =>
    match c.node with
    | .integer i =>
      if 0 ≤ i then
        match prev_max with
        | some pm =>
          if pm < i then .ok i
          else .error (.EnumIDAlreadyAssigned member.name i member.loc)
        | none => .ok i
      else incr
    | _ => incr
  | none => incr

/-- The `process_member` closure of `process_enum_type_decl`: record
the member as a `usize` constant with the given id, failing on a
duplicated name. -/
def process_member (a : ConstantDeclAnalysis) (member : EnumTypeMember) (id : Int) :
    Except ConstantDeclError ConstantDeclAnalysis :=
  match a.get_variable member.name with
  | some (first_decl_loc, _, _) =>
    .error (.DuplicatedConstant member.name first_decl_loc member.loc)
  | none =>
    .ok ⟨a.vars ++ [(member.name, member.loc, some .usize, Constant.integer id)]⟩

/-- The `while let` loop of `process_enum_type_decl` over the members
after the first, threading the current id. -/
def process_rest_members (a : ConstantDeclAnalysis) (curr_id : Int) :
    List EnumTypeMember → Except ConstantDeclError ConstantDeclAnalysis
  | [] => .ok a
  | m :: rest => do
    let id ← extract_value m (some curr_id)
    let a' ← process_member a m id
    process_rest_members a' id rest

/-- `ConstantDeclAnalysis::process_enum_type_decl`. The Rust code
unwraps the first member (an enum declaration always has members);
`none` models that panic on an empty member list. -/
def process_enum_type_decl (a : ConstantDeclAnalysis) (etd : EnumTypeDecl) :
    Option (Except ConstantDeclError ConstantDeclAnalysis) :=
  match etd.members with
  | [] => none
  | first :: rest =>
    some (do
      let id0 ← extract_value first none
      let a1 ← process_member a first id0
      process_rest_members a1 id0 rest)

/-- Spec-side id of the first enum member, following the claim's words:
0 unless the member carries an explicit non-negative integer
assignment, in which case that integer. -/
def claimedFirstId (m : EnumTypeMember) : Int :=
  match m.assigned_number with
  | some c =>
    match c.node with
    | .integer i => if 0 ≤ i then i else 0
    | _ => 0
  | none => 0

/-- Spec-side id of a subsequent enum member, following the claim's
words: the explicit non-negative assignment when strictly greater than
the previous id, `EnumIDAlreadyAssigned` when an explicit non-negative
assignment is not strictly greater, previous id plus one otherwise. -/
def claimedNextId (prev : Int) (m : EnumTypeMember) : Except ConstantDeclError Int :=
  match m.assigned_number with
  | some c =>
    match c.node with
    | .integer i =>
      if 0 ≤ i then
        if prev < i then .ok i
        else .error (.EnumIDAlreadyAssigned m.name i m.loc)
      else .ok (prev + 1)
    | _ => .ok (prev + 1)
  | none => .ok (prev + 1)

/-- Spec-side id sequence for the members after the first. -/
def claimedRestIds (prev : Int) : List EnumTypeMember → Except ConstantDeclError (List Int)
  | [] => .ok []
  | m :: rest => do
    let i ← claimedNextId prev m
    let is ← claimedRestIds i rest
    .ok (i :: is)

/-- Spec-side id sequence for a whole member list (empty on empty). -/
def claimedIds : List EnumTypeMember → Except ConstantDeclError (List Int)
  | [] => .ok []
  | m :: rest => do
    let i := claimedFirstId m
    let is ← claimedRestIds i rest
    .ok (i :: is)

/-- The variable entry recorded for an enum member with a given id. -/
def enumEntry (m : EnumTypeMember) (i : Int) :
    String × Loc × Option FrontType × Constant :=
  (m.name, m.loc, some .usize, Constant.integer i)

/-! ## Front AST (`compiler/front/ast`) -/

/-- `Variable` from the front AST: a name with a location (the
`Identifier` indirection of the Rust AST is collapsed into the name). -/
abbrev Variable := AstNode String

/-- `Variable::name`. -/
def Variable.name (v : Variable) : String := v.node

/-- `VariableBinding`: a bound name with an optional type annotation. -/
structure VariableBinding where
  loc : Loc
  name : String
  ty : Option FrontType
deriving DecidableEq, Repr

/-- `VariableBinding::to_variable`. -/
def VariableBinding.to_variable (b : VariableBinding) : Variable :=
  ⟨b.loc, b.name⟩

/-- `BinaryOp` from `common/binary_op.rs` (payload only; the boundness
claims never inspect it). -/
inductive BinaryOp where
  | add | sub | mul | div | mod
  | eq | neq | lt | leq | gt | geq
  | andOp | orOp | xorOp
deriving DecidableEq, Repr

/-- `UnaryOpNode` from the front AST. -/
inductive UnaryOp where
  | neg | pos | not
  | typeCast (ty : FrontType)
deriving DecidableEq, Repr

/-- Front `Expr` (`compiler/front/ast/expr.rs`), with the `AstNode`
wrappers of the sub-node structs flattened into the constructors. -/
inductive Expr where
  | constant (loc : Loc) (c : ConstantNode)
  | var (v : Variable)
  | wildcard (loc : Loc)
  | binary (loc : Loc) (op : BinaryOp) (op1 op2 : Expr)
  | unary (loc : Loc) (op : UnaryOp) (op1 : Expr)
  | ifThenElse (loc : Loc) (cond thenBr elseBr : Expr)
  | call (loc : Loc) (f : String) (args : List Expr)
deriving Repr

/-- `Expr::location`. -/
def Expr.location : Expr → Loc
  | .constant loc _ => loc
  | .var v => v.loc
  | .wildcard loc => loc
  | .binary loc _ _ _ => loc
  | .unary loc _ _ => loc
  | .ifThenElse loc _ _ _ => loc
  | .call loc _ _ => loc

/-- `Atom`: a predicate applied to argument expressions. -/
structure Atom where
  loc : Loc
  predicate : String
  args : List Expr
deriving Repr

/-- `NegAtom`: a negated atom. -/
structure NegAtom where
  loc : Loc
  atom : Atom
deriving Repr

/-- `Constraint`: a boolean expression used as a formula. -/
structure Constraint where
  loc : Loc
  expr : Expr
deriving Repr

/-- `ReduceOperatorNode` from the front AST (the `Forall` and `Exists`
variants are renamed `forallOp`/`existsOp` because of Lean keywords). -/
inductive ReduceOperatorNode where
  | count | sum | prod | min | max
  | existsOp | forallOp | unique
  | topk (k : Nat)
  | unknown (a : String)
deriving DecidableEq, Repr

/-- `ReduceOperator`: an AST node wrapping a `ReduceOperatorNode`. -/
abbrev ReduceOperator := AstNode ReduceOperatorNode

/-- Rendering of a reduce operator used by the `EmptyBinding`
diagnostic (`ReduceOperatorNode`'s `Display`). -/
def ReduceOperatorNode.toStr : ReduceOperatorNode → String
  | .count => "count"
  | .sum => "sum"
  | .prod => "prod"
  | .min => "min"
  | .max => "max"
  | .existsOp => "exists"
  | .forallOp => "forall"
  | .unique => "unique"
  | .topk _ => "top"
  | .unknown a => a

mutual

/-- `Formula` from the front AST. The payload of `ForallExistsReduce`
is never traversed by the code under study (the boundness pass panics
on it), so only its location is kept. -/
inductive Formula where
  | disjunction (loc : Loc) (args : List Formula)
  | conjunction (loc : Loc) (args : List Formula)
  | implies (loc : Loc) (left right : Formula)
  | atom (a : Atom)
  | negAtom (a : NegAtom)
  | constraint (c : Constraint)
  | reduce (r : Reduce)
  | forallExistsReduce (loc : Loc)
deriving Repr

/-- Front `Reduce`: result (left) variables, operator, binding
variables, argument variables, body formula, and optional group-by
(bindings and formula). -/
inductive Reduce where
  | mk (loc : Loc) (left : List Variable) (operator : ReduceOperator)
       (bindings : List VariableBinding) (args : List Variable)
       (body : Formula)
       (group_by : Option (List VariableBinding × Formula))
deriving Repr

end

/-- `Reduce::location`. -/
def Reduce.loc : Reduce → Loc
  | .mk loc _ _ _ _ _ _ => loc

/-- `Reduce::left_variables`. -/
def Reduce.left : Reduce → List Variable
  | .mk _ l _ _ _ _ _ => l

/-- `Reduce::operator`. -/
def Reduce.operator : Reduce → ReduceOperator
  | .mk _ _ op _ _ _ _ => op

/-- `Reduce::bindings`. -/
def Reduce.bindings : Reduce → List VariableBinding
  | .mk _ _ _ bs _ _ _ => bs

/-- `Reduce::args`. -/
def Reduce.args : Reduce → List Variable
  | .mk _ _ _ _ as_ _ _ => as_

/-- `Reduce::body`. -/
def Reduce.body : Reduce → Formula
  | .mk _ _ _ _ _ b _ => b

/-- `Reduce::group_by`. -/
def Reduce.group_by : Reduce → Option (List VariableBinding × Formula)
  | .mk _ _ _ _ _ _ g => g

/-! ## Aggregation analysis (`compiler/front/analyzers/aggregation.rs`) -/

/-- `AggregationAnalysisError` from `aggregation.rs`. -/
inductive AggregationAnalysisError where
  | NonMinMaxAggregationHasArgument (op : ReduceOperator)
  | UnknownAggregator (agg : String) (loc : Loc)
  | ForallBodyNotImplies (loc : Loc)
  | EmptyBinding (agg : String) (loc : Loc)
deriving DecidableEq, Repr

/-- `AggregationAnalysis::visit_reduce`: append to `errors` the
diagnostics raised for one reduce node (operator/argument check
followed by the binding-variables check). -/
def visit_reduce (errors : List AggregationAnalysisError) (r : Reduce) :
    List AggregationAnalysisError :=
  let opErrs : List AggregationAnalysisError :=
    match r.operator.node with
    | .max | .min => []
    | .forallOp =>
      match r.body with
      | .implies _ _ _ => []
      | _ => [.ForallBodyNotImplies r.loc]
    | .unknown a => [.UnknownAggregator a r.loc]
    | _ =>
      if r.args.isEmpty then []
      else [.NonMinMaxAggregationHasArgument r.operator]
  let bindingErrs : List AggregationAnalysisError :=
    if r.bindings.isEmpty then
      match r.operator.node with
      | .existsOp | .forallOp | .unknown _ => []
      | op => [.EmptyBinding op.toStr r.loc]
    else []
  errors ++ opErrs ++ bindingErrs

/-! ## Boundness analysis contexts
(`compiler/front/analyzers/boundness/context.rs`) -/

/-- `BoundnessAnalysisError` (from `boundness/error.rs`, not under
`src/`); the two variants below are the ones raised by `context.rs`,
`local` stands for the errors of the local boundness walk. Modelled
from the spec: head variables and reduce arguments not bounded produce
`HeadExprUnbound` / `ReduceArgUnbound`. -/
inductive BoundnessAnalysisError where
  | HeadExprUnbound (loc : Loc)
  | ReduceArgUnbound (loc : Loc)
  | local_ (code : Nat) (loc : Loc)
deriving DecidableEq, Repr

/-- `ForeignPredicateBindings`. Modelled from the spec: a foreign
predicate declares a binding pattern over argument positions, each
`free`/`bound`. Only threaded through, never inspected, by the
functions under study. -/
structure ForeignPredicateBindings where
  patterns : List (String × List Bool)

mutual

/-- `RuleContext`: head variables and a disjunction-of-conjunctions
body context. -/
inductive RuleContext where
  | mk (head_vars : List (String × Loc)) (body : DisjunctionContext)

/-- `DisjunctionContext`: a list of conjunction contexts. -/
inductive DisjunctionContext where
  | mk (conjuncts : List ConjunctionContext)

/-- `ConjunctionContext`: positive atoms, negated atoms, and
aggregation contexts. -/
inductive ConjunctionContext where
  | mk (pos_atoms : List Formula) (neg_atoms : List Formula)
       (agg_contexts : List AggregationContext)

/-- `AggregationContext`: the analysis context of one reduce node. -/
inductive AggregationContext where
  | mk (result_vars : List Variable) (binding_vars : List String)
       (arg_vars : List Variable)
       (body : RuleContext) (body_formula : Formula)
       (joined_body : RuleContext) (joined_body_formula : Formula)
       (group_by : Option (RuleContext × List Variable × Formula))
       (aggregate_op : ReduceOperatorNode)

end

/-- `RuleContext.head_vars`. -/
def RuleContext.head_vars : RuleContext → List (String × Loc)
  | .mk hv _ => hv

/-- `RuleContext.body`. -/
def RuleContext.body : RuleContext → DisjunctionContext
  | .mk _ b => b

/-- `DisjunctionContext.conjuncts`. -/
def DisjunctionContext.conjuncts : DisjunctionContext → List ConjunctionContext
  | .mk cs => cs

/-- `ConjunctionContext.pos_atoms`. -/
def ConjunctionContext.pos_atoms : ConjunctionContext → List Formula
  | .mk p _ _ => p

/-- `ConjunctionContext.neg_atoms`. -/
def ConjunctionContext.neg_atoms : ConjunctionContext → List Formula
  | .mk _ n _ => n

/-- `ConjunctionContext.agg_contexts`. -/
def ConjunctionContext.agg_contexts : ConjunctionContext → List AggregationContext
  | .mk _ _ a => a

/-- `AggregationContext.result_vars`. -/
def AggregationContext.result_vars : AggregationContext → List Variable
  | .mk rv _ _ _ _ _ _ _ _ => rv

/-- `AggregationContext.binding_vars`. -/
def AggregationContext.binding_vars : AggregationContext → List String
  | .mk _ bv _ _ _ _ _ _ _ => bv

/-- `AggregationContext.arg_vars`. -/
def AggregationContext.arg_vars : AggregationContext → List Variable
  | .mk _ _ av _ _ _ _ _ _ => av

/-- `AggregationContext.joined_body`. -/
def AggregationContext.joined_body : AggregationContext → RuleContext
  | .mk _ _ _ _ _ jb _ _ _ => jb

/-- `AggregationContext.group_by`. -/
def AggregationContext.group_by :
    AggregationContext → Option (RuleContext × List Variable × Formula)
  | .mk _ _ _ _ _ _ _ g _ => g

/-- `ConjunctionContext::from_atom`. -/
def ConjunctionContext.from_atom (a : Atom) : ConjunctionContext :=
  .mk [Formula.atom a] [] []

/-- `ConjunctionContext::from_neg_atom`. -/
def ConjunctionContext.from_neg_atom (a : NegAtom) : ConjunctionContext :=
  .mk [] [Formula.negAtom a] []

/-- `ConjunctionContext::from_constraint`. -/
def ConjunctionContext.from_constraint (c : Constraint) : ConjunctionContext :=
  .mk [Formula.constraint c] [] []

/-- `ConjunctionContext::join`: fold contexts by concatenating their
components (starting from the default empty context). -/
def ConjunctionContext.join (conjs : List ConjunctionContext) : ConjunctionContext :=
  conjs.foldl
    (fun acc c =>
      .mk (acc.pos_atoms ++ c.pos_atoms) (acc.neg_atoms ++ c.neg_atoms)
        (acc.agg_contexts ++ c.agg_contexts))
    (.mk [] [] [])

/-- Itertools' `multi_cartesian_product` restricted to lists: all ways
of picking one element from each list, the first list varying slowest;
an empty list of lists yields no products (itertools' convention). -/
def multiCartesianProduct (ls : List (List α)) : List (List α) :=
  match ls with
  | [] => []
  | _ => go ls
where
  /-- The mathematical cartesian product (one empty pick for no lists). -/
  go : List (List α) → List (List α)
    | [] => [[]]
    | l :: rest => l.flatMap (fun x => (go rest).map (x :: ·))

/-! ### Context construction (`from_formula`, `from_reduce`,
`from_qualified`)

The Rust recursion passes from formulas to contexts and back into the
bodies of reduce nodes, building one fresh conjunction node
(`joined_body_formula`) along the way; termination is justified by the
formula size measure `fsize` below. The two `panic!` branches of
`DisjunctionContext::from_formula` are modelled by `none`. -/

mutual

/-- Size of a formula; a reduce node dominates the fresh conjunction
of its body and group-by formula built by `from_reduce`. -/
def Formula.fsize : Formula → Nat
  | .disjunction _ args => 1 + Formula.fsizeList args
  | .conjunction _ args => 1 + Formula.fsizeList args
  | .implies _ l r => 1 + l.fsize + r.fsize
  | .atom _ => 1
  | .negAtom _ => 1
  | .constraint _ => 1
  | .reduce r => 1 + r.rsize
  | .forallExistsReduce _ => 1

/-- Sum of formula sizes over a list (with one unit per element, so
that a list is always bigger than its tail). -/
def Formula.fsizeList : List Formula → Nat
  | [] => 0
  | f :: fs => 1 + f.fsize + Formula.fsizeList fs

/-- Size of a reduce node. -/
def Reduce.rsize : Reduce → Nat
  | .mk _ _ _ _ _ body gb =>
    4 + body.fsize + (match gb with | none => 0 | some (_, g) => g.fsize)

end

mutual

/-- `DisjunctionContext::from_formula`; `none` models the `panic!` on
`Implies` and `ForallExistsReduce`. -/
def DisjunctionContext.from_formula (f : Formula) : Option DisjunctionContext :=
  match f with
  | .disjunction _ args =>
    (fromFormulaList args).map (fun css => .mk css.flatten)
  | .conjunction _ args =>
    (fromFormulaList args).map
      (fun css => .mk ((multiCartesianProduct css).map ConjunctionContext.join))
  | .implies _ _ _ => none
  | .atom a => some (.mk [ConjunctionContext.from_atom a])
  | .negAtom a => some (.mk [ConjunctionContext.from_neg_atom a])
  | .constraint c => some (.mk [ConjunctionContext.from_constraint c])
  | .reduce r => (ConjunctionContext.from_reduce r).map (fun c => .mk [c])
  | .forallExistsReduce _ => none
termination_by 3 * f.fsize
decreasing_by
  all_goals simp [Formula.fsize]
  all_goals omega

/-- The per-argument loop of `from_formula` on disjunctions and
conjunctions: the `conjuncts` of the context of each argument. -/
def fromFormulaList (fs : List Formula) : Option (List (List ConjunctionContext)) :=
  match fs with
  | [] => some []
  | f :: rest => do
    let d ← DisjunctionContext.from_formula f
    let ds ← fromFormulaList rest
    pure (d.conjuncts :: ds)
termination_by 3 * Formula.fsizeList fs + 1
decreasing_by
  all_goals simp [Formula.fsizeList]
  all_goals omega

/-- `ConjunctionContext::from_reduce`. -/
def ConjunctionContext.from_reduce (r : Reduce) : Option ConjunctionContext := do
  let agg ← AggregationContext.from_reduce r
  pure (.mk [] [] [agg])
termination_by 3 * r.rsize + 2
decreasing_by
  omega

/-- `AggregationContext::from_reduce`. -/
def AggregationContext.from_reduce (r : Reduce) : Option AggregationContext := do
  let body ← RuleContext.from_qualified r.bindings r.args r.body
  let joined_body_formula :=
    match r.group_by with
    | some (_, group_by_formula) =>
      Formula.conjunction 0 [r.body, group_by_formula]
    | none => r.body
  let joined_body ← RuleContext.from_qualified r.bindings r.args joined_body_formula
  let group_by ←
    match h : r.group_by with
    | some (bindings, formula) => do
      let ctx ← RuleContext.from_qualified bindings [] formula
      pure (some (ctx, bindings.map VariableBinding.to_variable, formula))
    | none => pure none
  pure (.mk r.left (r.bindings.map VariableBinding.name) r.args
    body r.body joined_body joined_body_formula group_by r.operator.node)
termination_by 3 * r.rsize + 1
decreasing_by
  all_goals rcases r with ⟨loc, l, op, bs, as_, body, gb⟩
  all_goals rcases gb with _ | ⟨gbs, gf⟩
  all_goals
    simp_all [Reduce.rsize, Reduce.body, Reduce.group_by, Formula.fsize,
      Formula.fsizeList]
  all_goals omega

/-- `RuleContext::from_qualified`. -/
def RuleContext.from_qualified (bindings : List VariableBinding)
    (args : List Variable) (body : Formula) : Option RuleContext := do
  let d ← DisjunctionContext.from_formula body
  pure (.mk (bindings.map (fun b => (b.name, b.loc)) ++
    args.map (fun v => (v.name, v.loc))) d)
termination_by 3 * body.fsize + 1
decreasing_by
  omega

end

/-! ### Boundness computation

`ConjunctionContext::compute_boundness` hands the work over to
`LocalBoundnessAnalysisContext` (walking positive atoms and bounded
expressions, then iterating to a fixpoint); that type lives outside
`src/`. It is abstracted as a parameter `localStep` receiving the
foreign predicate bindings, the initial bounded set contributed by the
aggregation contexts, the positive atoms, and the bounded expressions;
the theorems below hold for every such `localStep`. -/

/-- The result/error type of the boundness computations. -/
abbrev BoundResult := Except (List BoundnessAnalysisError) (Finset String)

/-- The abstracted `LocalBoundnessAnalysisContext` phase of
`ConjunctionContext::compute_boundness`. Modelled from the spec:
positive-atom walking and the constraint fixpoint, §4.2 steps 3-5. -/
abbrev LocalStep :=
  ForeignPredicateBindings → Finset String → List Formula → List Expr → BoundResult

mutual

/-- `RuleContext::compute_boundness`: the body's bounded set, after
checking every head variable is bounded (first offender errors with
`HeadExprUnbound`). -/
def RuleContext.compute_boundness (localStep : LocalStep)
    (pb : ForeignPredicateBindings) (be : List Expr)
    (rc : RuleContext) : BoundResult := do
  let bounded_vars ← rc.body.compute_boundness localStep pb be
  match rc.head_vars.find? (fun p => decide (p.1 ∉ bounded_vars)) with
  | some (_, var_loc) => .error [.HeadExprUnbound var_loc]
  | none => .ok bounded_vars
termination_by sizeOf rc
decreasing_by
  rcases rc with ⟨hv, b⟩
  all_goals simp [RuleContext.body]
  all_goals omega

/-- `DisjunctionContext::compute_boundness`: empty set for no
conjuncts, the single conjunct's set for one, otherwise the first
conjunct's set filtered by membership in all the others. -/
def DisjunctionContext.compute_boundness (localStep : LocalStep)
    (pb : ForeignPredicateBindings) (be : List Expr)
    (d : DisjunctionContext) : BoundResult :=
  match hd : d.conjuncts with
  | [] => .ok ∅
  | [c] => c.compute_boundness localStep pb be
  | c1 :: c2 :: cs => do
    let set1 ← c1.compute_boundness localStep pb be
    let other_sets ← collectConjBoundness localStep pb be (c2 :: cs)
    .ok (set1.filter (fun v => ∀ s ∈ other_sets, v ∈ s))
termination_by sizeOf d
decreasing_by
  all_goals rcases d with ⟨cs'⟩
  all_goals simp [DisjunctionContext.conjuncts] at hd
  all_goals subst hd
  all_goals simp
  all_goals omega

/-- The `collect` over `conjuncts[1..]` in
`DisjunctionContext::compute_boundness`. -/
def collectConjBoundness (localStep : LocalStep)
    (pb : ForeignPredicateBindings) (be : List Expr) :
    List ConjunctionContext → Except (List BoundnessAnalysisError) (List (Finset String))
  | [] => .ok []
  | c :: rest => do
    let s ← c.compute_boundness localStep pb be
    let ss ← collectConjBoundness localStep pb be rest
    .ok (s :: ss)
termination_by cs => sizeOf cs
decreasing_by
  all_goals simp
  all_goals omega

/-- `ConjunctionContext::compute_boundness`: seed the local context
with the union of the aggregation contexts' bounded sets, then run the
local walk over the positive atoms and bounded expressions. -/
def ConjunctionContext.compute_boundness (localStep : LocalStep)
    (pb : ForeignPredicateBindings) (be : List Expr)
    (c : ConjunctionContext) : BoundResult := do
  let bounded ← aggUnionBoundness localStep pb be c.agg_contexts
  localStep pb bounded c.pos_atoms be
termination_by sizeOf c
decreasing_by
  rcases c with ⟨p, n, ag⟩
  all_goals simp [ConjunctionContext.agg_contexts]
  all_goals omega

/-- The aggregation loop of `ConjunctionContext::compute_boundness`:
union the bounded sets of the aggregation contexts, in order. -/
def aggUnionBoundness (localStep : LocalStep)
    (pb : ForeignPredicateBindings) (be : List Expr) :
    List AggregationContext → BoundResult
  | [] => .ok ∅
  | a :: rest => do
    let bounded_args ← a.compute_boundness localStep pb be
    let others ← aggUnionBoundness localStep pb be rest
    .ok (bounded_args ∪ others)
termination_by as_ => sizeOf as_
decreasing_by
  all_goals simp
  all_goals omega

/-- `AggregationContext::compute_boundness`: check the group-by
context, take the joined body's bounded set, remove the binding
variables, fail with `ReduceArgUnbound` on the first argument variable
not bounded, and add the result and argument variables. -/
def AggregationContext.compute_boundness (localStep : LocalStep)
    (pb : ForeignPredicateBindings) (be : List Expr)
    (a : AggregationContext) : BoundResult := do
  match hg : a.group_by with
  | some (group_by_ctx, _, _) =>
    let _ ← group_by_ctx.compute_boundness localStep pb be
    pure ()
  | none => pure ()
  let joined ← a.joined_body.compute_boundness localStep pb be
  let bounded := a.binding_vars.foldl (fun b n => b.erase n) joined
  match a.arg_vars.find? (fun v => decide (v.name ∉ bounded)) with
  | some arg_var => .error [.ReduceArgUnbound arg_var.loc]
  | none =>
    .ok (bounded ∪ (a.result_vars.map Variable.name).toFinset ∪
      (a.arg_vars.map Variable.name).toFinset)
termination_by sizeOf a
decreasing_by
  all_goals rcases a with ⟨rv, bv, av, b, bf, jb, jbf, gb, op⟩
  all_goals simp_all [AggregationContext.group_by, AggregationContext.joined_body]
  all_goals omega

end

/-! ### The normalized fragment (for the totality claim about
`from_formula`) -/

mutual

/-- A formula is normalized when it is built only from disjunction,
conjunction, atom, negated atom, constraint and reduce constructors —
no `Implies` and no `ForallExistsReduce` anywhere, including inside
reduce bodies and group-by formulas. -/
def Formula.normalized : Formula → Bool
  | .disjunction _ args => Formula.normalizedList args
  | .conjunction _ args => Formula.normalizedList args
  | .implies _ _ _ => false
  | .atom _ => true
  | .negAtom _ => true
  | .constraint _ => true
  | .reduce r => r.normalizedRed
  | .forallExistsReduce _ => false

/-- All formulas of a list are normalized. -/
def Formula.normalizedList : List Formula → Bool
  | [] => true
  | f :: fs => f.normalized && Formula.normalizedList fs

/-- A reduce node is normalized when its body and its group-by formula
(when present) are. -/
def Reduce.normalizedRed : Reduce → Bool
  | .mk _ _ _ _ _ body gb =>
    body.normalized && (match gb with | none => true | some (_, g) => g.normalized)

end

/-! ## Values and tuples (`common/value.rs`, `common/tuple.rs`)

Machine integers are modelled as unbounded `Int`/`Nat` (no claim under
study exercises overflow); floats are modelled by their bit patterns,
which is enough since no claim computes with them. -/

/-- `Value`: the primitive value tagged union. -/
inductive Value where
  | i8 (i : Int) | i16 (i : Int) | i32 (i : Int) | i64 (i : Int)
  | i128 (i : Int) | isize (i : Int)
  | u8 (n : Nat) | u16 (n : Nat) | u32 (n : Nat) | u64 (n : Nat)
  | u128 (n : Nat) | usize (n : Nat)
  | f32 (bits : Nat) | f64 (bits : Nat)
  | bool (b : Bool) | char (c : Char) | str (s : String)
deriving DecidableEq, Repr

/-- `ValueType`: the primitive type names. -/
inductive ValueType where
  | i8 | i16 | i32 | i64 | i128 | isize
  | u8 | u16 | u32 | u64 | u128 | usize
  | f32 | f64 | bool | char | str
deriving DecidableEq, Repr

/-- `Tuple`: a nested product of values. -/
inductive Tuple where
  | value (v : Value)
  | tuple (ts : List Tuple)
deriving Repr

/-- `TupleType`: the shape mirror of `Tuple`. -/
inductive TupleType where
  | value (t : ValueType)
  | tuple (ts : List TupleType)
deriving Repr

/-! ## RAM IR (`compiler/ram/ast.rs`) -/

/-- Common `Expr` (`common/expr.rs`): payload of `Project`/`Filter`
dataflows; never inspected by `source_relations`. -/
inductive RamExpr where
  | access (indices : List Nat)
  | constant (v : Value)
  | binary (op : BinaryOp) (op1 op2 : RamExpr)
  | unary (op : UnaryOp) (op1 : RamExpr)
  | ifThenElse (cond thenBr elseBr : RamExpr)
  | call (f : String) (args : List RamExpr)
deriving Repr

/-- `AggregateOp` (`common/aggregate_op.rs`): payload of RAM `Reduce`
nodes. -/
inductive AggregateOp where
  | count | sum | prod | min | max
  | existsOp | forallOp | unique
  | topk (k : Nat)
deriving DecidableEq, Repr

/-- `ReduceGroupByType` from `compiler/ram/ast.rs`. -/
inductive ReduceGroupByType where
  | none
  | implicit
  | join (rel : String)
deriving DecidableEq, Repr

/-- RAM `Reduce` node: operator, source predicate, group-by kind. -/
structure RamReduce where
  op : AggregateOp
  predicate : String
  group_by : ReduceGroupByType
deriving DecidableEq, Repr

/-- `RamReduce::source_relation`. -/
def RamReduce.source_relation (r : RamReduce) : String := r.predicate

/-- `Dataflow` from `compiler/ram/ast.rs`. -/
inductive Dataflow where
  | unit (ty : TupleType)
  | untaggedVec (tuples : List Tuple)
  | relation (r : String)
  | project (d : Dataflow) (e : RamExpr)
  | filter (d : Dataflow) (e : RamExpr)
  | find (d : Dataflow) (t : Tuple)
  | union (d1 d2 : Dataflow)
  | join (d1 d2 : Dataflow)
  | intersect (d1 d2 : Dataflow)
  | product (d1 d2 : Dataflow)
  | antijoin (d1 d2 : Dataflow)
  | difference (d1 d2 : Dataflow)
  | reduce (r : RamReduce)
  | overwriteOne (d : Dataflow)
  | exclusion (d1 d2 : Dataflow)
  | foreignPredicateGround (p : String) (values : List Value)
  | foreignPredicateConstraint (d : Dataflow) (p : String) (args : List RamExpr)
  | foreignPredicateJoin (d : Dataflow) (p : String) (args : List RamExpr)
deriving Repr

/-- `Dataflow::source_relations` (the Rust `HashSet<&String>` becomes a
`Finset String`). -/
def Dataflow.source_relations : Dataflow → Finset String
  | .unit _ => ∅
  | .union d1 d2 | .join d1 d2 | .intersect d1 d2 | .product d1 d2
  | .antijoin d1 d2 | .difference d1 d2 =>
    d1.source_relations ∪ d2.source_relations
  | .project d _ | .filter d _ | .find d _ | .overwriteOne d
  | .foreignPredicateConstraint d _ _ | .foreignPredicateJoin d _ _
  | .exclusion d _ => d.source_relations
  | .reduce r => {r.source_relation}
  | .relation r => {r}
  | .foreignPredicateGround _ _ | .untaggedVec _ => ∅

/-- Spec-side characterization of the claim: a relation name is a
source of a dataflow when it occurs transitively in a `Relation` leaf
or as the source predicate of a `Reduce` node, where traversal passes
through unary and binary nodes but only through the left operand of an
`Exclusion`, and never yields names from `ForeignPredicateGround` or
`UntaggedVec` leaves. -/
inductive SourceRelationSpec : String → Dataflow → Prop where
  | relation (r : String) : SourceRelationSpec r (.relation r)
  | reduce (rd : RamReduce) : SourceRelationSpec rd.predicate (.reduce rd)
  | unionLeft {r d1 d2} : SourceRelationSpec r d1 → SourceRelationSpec r (.union d1 d2)
  | unionRight {r d1 d2} : SourceRelationSpec r d2 → SourceRelationSpec r (.union d1 d2)
  | joinLeft {r d1 d2} : SourceRelationSpec r d1 → SourceRelationSpec r (.join d1 d2)
  | joinRight {r d1 d2} : SourceRelationSpec r d2 → SourceRelationSpec r (.join d1 d2)
  | intersectLeft {r d1 d2} : SourceRelationSpec r d1 → SourceRelationSpec r (.intersect d1 d2)
  | intersectRight {r d1 d2} : SourceRelationSpec r d2 → SourceRelationSpec r (.intersect d1 d2)
  | productLeft {r d1 d2} : SourceRelationSpec r d1 → SourceRelationSpec r (.product d1 d2)
  | productRight {r d1 d2} : SourceRelationSpec r d2 → SourceRelationSpec r (.product d1 d2)
  | antijoinLeft {r d1 d2} : SourceRelationSpec r d1 → SourceRelationSpec r (.antijoin d1 d2)
  | antijoinRight {r d1 d2} : SourceRelationSpec r d2 → SourceRelationSpec r (.antijoin d1 d2)
  | differenceLeft {r d1 d2} : SourceRelationSpec r d1 → SourceRelationSpec r (.difference d1 d2)
  | differenceRight {r d1 d2} : SourceRelationSpec r d2 → SourceRelationSpec r (.difference d1 d2)
  | project {r d e} : SourceRelationSpec r d → SourceRelationSpec r (.project d e)
  | filter {r d e} : SourceRelationSpec r d → SourceRelationSpec r (.filter d e)
  | find {r d t} : SourceRelationSpec r d → SourceRelationSpec r (.find d t)
  | overwriteOne {r d} : SourceRelationSpec r d → SourceRelationSpec r (.overwriteOne d)
  | fpConstraint {r d p args} :
      SourceRelationSpec r d → SourceRelationSpec r (.foreignPredicateConstraint d p args)
  | fpJoin {r d p args} :
      SourceRelationSpec r d → SourceRelationSpec r (.foreignPredicateJoin d p args)
  | exclusionLeft {r d1 d2} :
      SourceRelationSpec r d1 → SourceRelationSpec r (.exclusion d1 d2)

/-! ## Top-bottom-k-clauses provenance
(`runtime/provenance/probabilistic/top_bottom_k_clauses.rs` and
`runtime/provenance/differentiable/diff_top_bottom_k_clauses.rs`)

The `CNFDNFFormula` tag arithmetic (`one`, `mult`, `base_negate`,
`top_bottom_k_tag_of_chosen_set`) lives in `CNFDNFContextTrait`
outside `src/`; the aggregators below are parameterized over it, and
the theorems hold for every choice of those operations. A
`DynamicElement` is modelled as a tuple/tag pair. -/

/-- Itertools' `combinations(k)` over a list, in itertools order:
combinations containing the first element come first. -/
def combinations : List α → Nat → List (List α)
  | _, 0 => [[]]
  | [], _ + 1 => []
  | x :: xs, k + 1 => (combinations xs k).map (x :: ·) ++ combinations xs (k + 1)

/-- Itertools' `powerset()` over a list: all combinations, by
increasing cardinality. -/
def powerset (l : List α) : List (List α) :=
  (List.range (l.length + 1)).flatMap (combinations l)

/-- `dynamic_count` of the `top-bottom-k-clauses` provenance,
parameterized over the provenance's `one()` and
`top_bottom_k_tag_of_chosen_set` (the latter already applied to the
context's `k`). -/
def dynamic_count {Tup Tag : Type} (one : Tag)
    (tag_of_chosen_set : List Tag → List Nat → Tag)
    (batch : List (Tup × Tag)) : List (Nat × Tag) :=
  if batch.isEmpty then [(0, one)]
  else
    (powerset (List.range batch.length)).map
      (fun chosen_set =>
        (chosen_set.length, tag_of_chosen_set (batch.map Prod.snd) chosen_set))

/-- `dynamic_count` of the `diff-top-bottom-k-clauses` provenance: the
same text as the probabilistic one. -/
def diff_dynamic_count {Tup Tag : Type} (one : Tag)
    (tag_of_chosen_set : List Tag → List Nat → Tag)
    (batch : List (Tup × Tag)) : List (Nat × Tag) :=
  if batch.isEmpty then [(0, one)]
  else
    (powerset (List.range batch.length)).map
      (fun chosen_set =>
        (chosen_set.length, tag_of_chosen_set (batch.map Prod.snd) chosen_set))

/-- `dynamic_min` of the `top-bottom-k-clauses` provenance,
parameterized over `one()`, `mult` and `negate` (the latter total:
this provenance's `negate` always returns `Some`). The loop `agg_tag =
one; for j < i: agg_tag = mult(agg_tag, negate(tag_j)); agg_tag =
mult(agg_tag, tag_i)` is realized by accumulating the prefix product
`pre` along the list. -/
def dynamic_min_aux {Tup Tag : Type} (mult : Tag → Tag → Tag) (negate : Tag → Tag)
    (pre : Tag) : List (Tup × Tag) → List (Tup × Tag)
  | [] => []
  | (t, tag) :: rest =>
    (t, mult pre tag) :: dynamic_min_aux mult negate (mult pre (negate tag)) rest

/-- `dynamic_min` of the `top-bottom-k-clauses` provenance. -/
def dynamic_min {Tup Tag : Type} (one : Tag) (mult : Tag → Tag → Tag)
    (negate : Tag → Tag) (batch : List (Tup × Tag)) : List (Tup × Tag) :=
  dynamic_min_aux mult negate one batch

/-- `dynamic_max` of the `top-bottom-k-clauses` provenance: for each
index `i`, fold `mult(·, negate(tag_j))` over the tags after `i`,
starting from `tag_i`. -/
def dynamic_max {Tup Tag : Type} (mult : Tag → Tag → Tag) (negate : Tag → Tag) :
    List (Tup × Tag) → List (Tup × Tag)
  | [] => []
  | (t, tag) :: rest =>
    (t, rest.foldl (fun acc e => mult acc (negate e.2)) tag) ::
      dynamic_max mult negate rest

/-! ## Untagged vector dataflow (`runtime/dynamic/dataflow/untagged_vec.rs`) -/

/-- `RuntimeEnvironment`. Modelled from the spec: per-run execution
state (iteration counter and the like); the untagged-vector dataflow
ignores it entirely. -/
structure RuntimeEnvironment where
  iteration_count : Nat
deriving DecidableEq, Repr

/-- `DynamicBatches`. Modelled from the spec: a (lazily produced)
sequence of batches, each batch enumerating tuples in order; the
`Empty` variant is the empty sequence and `single(b)` the one-batch
sequence. -/
abbrev DynamicBatches := List (List Tuple)

/-- `DynamicBatches::Empty`. -/
def DynamicBatches.emptyBatches : DynamicBatches := []

/-- `DynamicBatches::single`. -/
def DynamicBatches.single (b : List Tuple) : DynamicBatches := [b]

/-- `DynamicBatch::untagged_vec(ctx, tuples.iter())`. Modelled from
the spec: a batch enumerating the stored tuples in order. -/
def DynamicBatch.untagged_vec {Prov : Type} (_ctx : Prov) (tuples : List Tuple) :
    List Tuple := tuples

/-- `DynamicUntaggedVec`: a provenance context reference and a stored
tuple vector. -/
structure DynamicUntaggedVec (Prov : Type) where
  ctx : Prov
  tuples : List Tuple

/-- `DynamicUntaggedVec::iter_recent`. -/
def DynamicUntaggedVec.iter_recent {Prov : Type} (v : DynamicUntaggedVec Prov)
    (_env : RuntimeEnvironment) : DynamicBatches :=
  DynamicBatches.single (DynamicBatch.untagged_vec v.ctx v.tuples)

/-- `DynamicUntaggedVec::iter_stable`. -/
def DynamicUntaggedVec.iter_stable {Prov : Type} (_v : DynamicUntaggedVec Prov)
    (_env : RuntimeEnvironment) : DynamicBatches :=
  DynamicBatches.emptyBatches

/-! ## The `fib` foreign function (`tests/integrate/ff.rs`) -/

/-- The `for i in 2..length` loop of `fib`: fill
`storage[i] = storage[i-2] + storage[i-1]` for the given indices. -/
def fib_fill (storage : List Int) : List Nat → List Int
  | [] => storage
  | i :: rest =>
    fib_fill (storage.set i (storage.getD (i - 2) 0 + storage.getD (i - 1) 0)) rest

/-- `fib<T>` from `tests/integrate/ff.rs`: `Some(1)` at 0 and 1;
for `t > 1`, a vector of `t` ones is filled in place and its last
entry returned; `None` otherwise (negative inputs). -/
def fib (t : Int) : Option Int :=
  if t = 0 then some 1
  else if t = 1 then some 1
  else if 1 < t then
    let length := t.toNat
    let storage := fib_fill (List.replicate length 1) ((List.range length).drop 2)
    some (storage.getD (storage.length - 1) 0)
  else none

/-- `Fib::execute`: dispatch on the integer variants of `Value`, apply
`fib`, rewrap in the same variant; non-integer values give `None`. -/
def Fib.execute (v : Value) : Option Value :=
  match v with
  | .i8 i => (fib i).map Value.i8
  | .i16 i => (fib i).map Value.i16
  | .i32 i => (fib i).map Value.i32
  | .i64 i => (fib i).map Value.i64
  | .i128 i => (fib i).map Value.i128
  | .isize i => (fib i).map Value.isize
  | .u8 n => (fib n).map (fun r => Value.u8 r.toNat)
  | .u16 n => (fib n).map (fun r => Value.u16 r.toNat)
  | .u32 n => (fib n).map (fun r => Value.u32 r.toNat)
  | .u64 n => (fib n).map (fun r => Value.u64 r.toNat)
  | .u128 n => (fib n).map (fun r => Value.u128 r.toNat)
  | .usize n => (fib n).map (fun r => Value.usize r.toNat)
  | _ => none

/-- The rule `S(x, $fib(x)) = R(x)` over an `i32` relation `R`.
Modelled from the spec: a foreign function returning `None` suppresses
that tuple without raising, so `S` collects the pairs whose `fib`
succeeded. -/
def fib_rule_output (R : List Int) : List (Int × Int) :=
  R.filterMap (fun x => (fib x).map (fun y => (x, y)))

/-! # Theorems -/

/-! ## C10: untagged vector batches -/

/-- C10: for every provenance, runtime environment and tuple vector, a
`DynamicUntaggedVec` dataflow contributes no stable batches
(`iter_stable` is the empty batch sequence), while `iter_recent`
returns exactly one batch enumerating the stored tuples in order. -/
theorem untagged_vec_iter_spec {Prov : Type} (v : DynamicUntaggedVec Prov)
    (env : RuntimeEnvironment) :
    v.iter_stable env = DynamicBatches.emptyBatches ∧
    v.iter_recent env = [v.tuples] :=
  ⟨rfl, rfl⟩

/-! ## C8: the `fib` foreign function -/

/-- C8: `fib` (and `Fib::execute` on integer values) returns 1, 2, 5,
21 at 0, 3, 5, 8, returns `None` on every negative signed integer, and
the rule `S(x, $fib(x)) = R(x)` over `R = {-10, 0, 3, 5, 8}` yields
`S = {(0,1),(3,2),(5,5),(8,21)}` because `None` suppresses a tuple. -/
theorem fib_ff_spec :
    Fib.execute (Value.i32 0) = some (Value.i32 1) ∧
    Fib.execute (Value.i32 3) = some (Value.i32 2) ∧
    Fib.execute (Value.i32 5) = some (Value.i32 5) ∧
    Fib.execute (Value.i32 8) = some (Value.i32 21) ∧
    (∀ t : Int, t < 0 →
      fib t = none ∧
      Fib.execute (Value.i8 t) = none ∧ Fib.execute (Value.i16 t) = none ∧
      Fib.execute (Value.i32 t) = none ∧ Fib.execute (Value.i64 t) = none ∧
      Fib.execute (Value.i128 t) = none ∧ Fib.execute (Value.isize t) = none) ∧
    fib_rule_output [-10, 0, 3, 5, 8] = [(0, 1), (3, 2), (5, 5), (8, 21)] := by
  refine ⟨by decide, by decide, by decide, by decide, ?_, by decide⟩
  intro t ht
  have hf : fib t = none := by
    have h0 : ¬ t = 0 := by omega
    have h1 : ¬ t = 1 := by omega
    have h2 : ¬ 1 < t := by omega
    simp [fib, h0, h1, h2]
  exact ⟨hf, by simp [Fib.execute, hf], by simp [Fib.execute, hf],
    by simp [Fib.execute, hf], by simp [Fib.execute, hf],
    by simp [Fib.execute, hf], by simp [Fib.execute, hf]⟩

/-- Witness for C8: the negative-input branch of `fib_ff_spec`
evaluated at `-10`. -/
theorem fib_ff_spec_witness :
    fib (-10) = none ∧ Fib.execute (Value.i32 (-10)) = none := by
  have h := (fib_ff_spec.2.2.2.2.1) (-10) (by norm_num)
  exact ⟨h.1, h.2.2.2.1⟩

/-! ## C4: non-min/max aggregation arguments -/

/-- C4 counterexample: a `forall` reduce node with a non-empty
argument list (and an `implies` body, and no bindings) produces no
errors at all, in particular no `NonMinMaxAggregationHasArgument`,
although its operator is neither `max` nor `min`. -/
theorem visit_reduce_forall_arg_counterexample :
    (Reduce.mk 0 [] ⟨0, .forallOp⟩ [] [⟨0, "x"⟩]
      (Formula.implies 0 (.atom ⟨0, "p", []⟩) (.atom ⟨0, "q", []⟩))
      none).operator.node ≠ ReduceOperatorNode.max ∧
    (Reduce.mk 0 [] ⟨0, .forallOp⟩ [] [⟨0, "x"⟩]
      (Formula.implies 0 (.atom ⟨0, "p", []⟩) (.atom ⟨0, "q", []⟩))
      none).operator.node ≠ ReduceOperatorNode.min ∧
    (Reduce.mk 0 [] ⟨0, .forallOp⟩ [] [⟨0, "x"⟩]
      (Formula.implies 0 (.atom ⟨0, "p", []⟩) (.atom ⟨0, "q", []⟩))
      none).args ≠ [] ∧
    visit_reduce []
      (Reduce.mk 0 [] ⟨0, .forallOp⟩ [] [⟨0, "x"⟩]
        (Formula.implies 0 (.atom ⟨0, "p", []⟩) (.atom ⟨0, "q", []⟩))
        none) = [] ∧
    ∀ op, AggregationAnalysisError.NonMinMaxAggregationHasArgument op ∉
      visit_reduce []
        (Reduce.mk 0 [] ⟨0, .forallOp⟩ [] [⟨0, "x"⟩]
          (Formula.implies 0 (.atom ⟨0, "p", []⟩) (.atom ⟨0, "q", []⟩))
          none) := by
  refine ⟨?_, ?_, ?_, ?_, ?_⟩
  · simp [Reduce.operator]
  · simp [Reduce.operator]
  · simp [Reduce.args]
  · rfl
  · intro op
    have h : visit_reduce []
        (Reduce.mk 0 [] ⟨0, .forallOp⟩ [] [⟨0, "x"⟩]
          (Formula.implies 0 (.atom ⟨0, "p", []⟩) (.atom ⟨0, "q", []⟩))
          none) = [] := rfl
    simp [h]

/-- C4 (amended): for every reduce node whose operator is none of
`max`, `min`, `forall`, or an unknown aggregator, a non-empty argument
list makes `visit_reduce` record `NonMinMaxAggregationHasArgument`. -/
theorem visit_reduce_nonminmax_arg (errors : List AggregationAnalysisError)
    (r : Reduce)
    (hmax : r.operator.node ≠ ReduceOperatorNode.max)
    (hmin : r.operator.node ≠ ReduceOperatorNode.min)
    (hforall : r.operator.node ≠ ReduceOperatorNode.forallOp)
    (hunk : ∀ a, r.operator.node ≠ ReduceOperatorNode.unknown a)
    (hargs : r.args ≠ []) :
    AggregationAnalysisError.NonMinMaxAggregationHasArgument r.operator ∈
      visit_reduce errors r := by
  have hne : r.args.isEmpty = false := by
    simp [List.isEmpty_iff, hargs]
  unfold visit_reduce
  cases hop : r.operator.node <;> simp_all

/-- Witness for C4's amended theorem: a `count` reduce with one
argument records the error. -/
theorem visit_reduce_nonminmax_arg_witness :
    AggregationAnalysisError.NonMinMaxAggregationHasArgument
        (⟨0, .count⟩ : ReduceOperator) ∈
      visit_reduce []
        (Reduce.mk 0 [] ⟨0, .count⟩ [⟨0, "x", none⟩] [⟨0, "y"⟩]
          (.atom ⟨0, "p", []⟩) none) := by
  exact visit_reduce_nonminmax_arg []
    (Reduce.mk 0 [] ⟨0, .count⟩ [⟨0, "x", none⟩] [⟨0, "y"⟩]
      (.atom ⟨0, "p", []⟩) none)
    (by simp [Reduce.operator]) (by simp [Reduce.operator])
    (by simp [Reduce.operator]) (by simp [Reduce.operator])
    (by simp [Reduce.args])

/-! ## C6: `dynamic_min` / `dynamic_max` tags -/

/-- Length of `dynamic_min_aux`. -/
theorem dynamic_min_aux_length {Tup Tag : Type} (mult : Tag → Tag → Tag)
    (negate : Tag → Tag) (l : List (Tup × Tag)) (pre : Tag) :
    (dynamic_min_aux mult negate pre l).length = l.length := by
  induction l generalizing pre with
  | nil => rfl
  | cons e rest ih =>
    rcases e with ⟨t, tag⟩
    simp [dynamic_min_aux, ih]

/-- Element `i` of `dynamic_min_aux pre l`: the `i`-th tuple, tagged
with the accumulated negation product of the tags before it
(starting from `pre`) multiplied with its own tag. -/
theorem dynamic_min_aux_getElem {Tup Tag : Type} (mult : Tag → Tag → Tag)
    (negate : Tag → Tag) (l : List (Tup × Tag)) (pre : Tag)
    (i : Nat) (t : Tup) (tag : Tag) (h : l[i]? = some (t, tag)) :
    (dynamic_min_aux mult negate pre l)[i]? =
      some (t, mult (((l.take i).map Prod.snd).foldl
        (fun acc s => mult acc (negate s)) pre) tag) := by
  induction l generalizing pre i with
  | nil => simp at h
  | cons e rest ih =>
    rcases e with ⟨t0, tag0⟩
    cases i with
    | zero =>
      simp at h
      simp [dynamic_min_aux, h]
    | succ j =>
      simp at h
      simpa [dynamic_min_aux] using ih (mult pre (negate tag0)) j h

/-- Length of `dynamic_max`. -/
theorem dynamic_max_length {Tup Tag : Type} (mult : Tag → Tag → Tag)
    (negate : Tag → Tag) (l : List (Tup × Tag)) :
    (dynamic_max mult negate l).length = l.length := by
  induction l with
  | nil => rfl
  | cons e rest ih =>
    rcases e with ⟨t, tag⟩
    simp [dynamic_max, ih]

/-- Element `i` of `dynamic_max l`: the `i`-th tuple, tagged with the
fold of the negations of the tags after it, starting from its own
tag. -/
theorem dynamic_max_getElem {Tup Tag : Type} (mult : Tag → Tag → Tag)
    (negate : Tag → Tag) (l : List (Tup × Tag))
    (i : Nat) (t : Tup) (tag : Tag) (h : l[i]? = some (t, tag)) :
    (dynamic_max mult negate l)[i]? =
      some (t, ((l.drop (i + 1)).map Prod.snd).foldl
        (fun acc s => mult acc (negate s)) tag) := by
  induction l generalizing i with
  | nil => simp at h
  | cons e rest ih =>
    rcases e with ⟨t0, tag0⟩
    cases i with
    | zero =>
      simp at h
      rcases h with ⟨h1, h2⟩
      subst h1
      subst h2
      simp [dynamic_max, List.foldl_map]
    | succ j =>
      simp at h
      simpa [dynamic_max] using ih j h

/-- C6: for the top-bottom-k-clauses provenance and any batch,
`dynamic_min` returns one element per index `i` carrying the `i`-th
tuple tagged `mult(∏_{j<i} negate(tag_j), tag_i)` (folded left from
`one()`), `dynamic_max` one element per index `i` carrying the `i`-th
tuple tagged `tag_i` folded with `mult(·, negate(tag_j))` over the
`j > i`; both return no elements on an empty batch. -/
theorem tbk_dynamic_min_max_spec {Tup Tag : Type} (one : Tag)
    (mult : Tag → Tag → Tag) (negate : Tag → Tag)
    (batch : List (Tup × Tag)) :
    dynamic_min one mult negate ([] : List (Tup × Tag)) = [] ∧
    dynamic_max mult negate ([] : List (Tup × Tag)) = [] ∧
    (dynamic_min one mult negate batch).length = batch.length ∧
    (dynamic_max mult negate batch).length = batch.length ∧
    (∀ i t tag, batch[i]? = some (t, tag) →
      (dynamic_min one mult negate batch)[i]? =
        some (t, mult (((batch.take i).map Prod.snd).foldl
          (fun acc s => mult acc (negate s)) one) tag)) ∧
    (∀ i t tag, batch[i]? = some (t, tag) →
      (dynamic_max mult negate batch)[i]? =
        some (t, ((batch.drop (i + 1)).map Prod.snd).foldl
          (fun acc s => mult acc (negate s)) tag)) := by
  refine ⟨rfl, rfl, dynamic_min_aux_length mult negate batch one,
    dynamic_max_length mult negate batch, ?_, ?_⟩
  · intro i t tag h
    exact dynamic_min_aux_getElem mult negate batch one i t tag h
  · intro i t tag h
    exact dynamic_max_getElem mult negate batch i t tag h

/-- Witness for C6 at a concrete two-element batch over `Tag := Nat`
(with `mult := ·*·`, `negate := ·+1`, `one := 1`). -/
theorem tbk_dynamic_min_max_spec_witness :
    (dynamic_min 1 (· * ·) (· + 1) [((0 : Nat), (2 : Nat)), (1, 3)])[1]? =
      some (1, 1 * (2 + 1) * 3) ∧
    (dynamic_max (· * ·) (· + 1) [((0 : Nat), (2 : Nat)), (1, 3)])[0]? =
      some (0, 2 * (3 + 1)) := by
  have h := @tbk_dynamic_min_max_spec Nat Nat
    1 (· * ·) (· + 1) [(0, 2), (1, 3)]
  have h1 := h.2.2.2.2.1 1 1 3 (by decide)
  have h2 := h.2.2.2.2.2 0 0 2 (by decide)
  constructor
  · rw [h1]
    decide
  · rw [h2]
    decide

/-! ## C7: `source_relations` -/

/-- Soundness half of C7: membership in `source_relations` implies the
spec-side occurrence predicate. -/
theorem spec_of_mem_source_relations :
    ∀ (d : Dataflow) (r : String),
      r ∈ d.source_relations → SourceRelationSpec r d := by
  intro d
  induction d with
  | unit ty => intro r hr; simp [Dataflow.source_relations] at hr
  | untaggedVec ts => intro r hr; simp [Dataflow.source_relations] at hr
  | relation r0 =>
    intro r hr
    simp [Dataflow.source_relations] at hr
    rw [hr]
    exact .relation r0
  | project d e ih =>
    intro r hr
    exact .project (ih r hr)
  | filter d e ih =>
    intro r hr
    exact .filter (ih r hr)
  | find d t ih =>
    intro r hr
    exact .find (ih r hr)
  | union d1 d2 ih1 ih2 =>
    intro r hr
    rcases Finset.mem_union.mp hr with h | h
    · exact .unionLeft (ih1 r h)
    · exact .unionRight (ih2 r h)
  | join d1 d2 ih1 ih2 =>
    intro r hr
    rcases Finset.mem_union.mp hr with h | h
    · exact .joinLeft (ih1 r h)
    · exact .joinRight (ih2 r h)
  | intersect d1 d2 ih1 ih2 =>
    intro r hr
    rcases Finset.mem_union.mp hr with h | h
    · exact .intersectLeft (ih1 r h)
    · exact .intersectRight (ih2 r h)
  | product d1 d2 ih1 ih2 =>
    intro r hr
    rcases Finset.mem_union.mp hr with h | h
    · exact .productLeft (ih1 r h)
    · exact .productRight (ih2 r h)
  | antijoin d1 d2 ih1 ih2 =>
    intro r hr
    rcases Finset.mem_union.mp hr with h | h
    · exact .antijoinLeft (ih1 r h)
    · exact .antijoinRight (ih2 r h)
  | difference d1 d2 ih1 ih2 =>
    intro r hr
    rcases Finset.mem_union.mp hr with h | h
    · exact .differenceLeft (ih1 r h)
    · exact .differenceRight (ih2 r h)
  | reduce rd =>
    intro r hr
    simp [Dataflow.source_relations, RamReduce.source_relation] at hr
    subst hr
    exact .reduce rd
  | overwriteOne d ih =>
    intro r hr
    exact .overwriteOne (ih r hr)
  | exclusion d1 d2 ih1 ih2 =>
    intro r hr
    exact .exclusionLeft (ih1 r hr)
  | foreignPredicateGround p vs =>
    intro r hr
    simp [Dataflow.source_relations] at hr
  | foreignPredicateConstraint d p args ih =>
    intro r hr
    exact .fpConstraint (ih r hr)
  | foreignPredicateJoin d p args ih =>
    intro r hr
    exact .fpJoin (ih r hr)

/-- Completeness half of C7: every name satisfying the spec-side
occurrence predicate is in `source_relations`. -/
theorem mem_source_relations_of_spec {r : String} {d : Dataflow}
    (h : SourceRelationSpec r d) : r ∈ d.source_relations := by
  induction h with
  | relation => simp [Dataflow.source_relations]
  | reduce => simp [Dataflow.source_relations, RamReduce.source_relation]
  | unionLeft h ih => exact Finset.mem_union.mpr (Or.inl ih)
  | unionRight h ih => exact Finset.mem_union.mpr (Or.inr ih)
  | joinLeft h ih => exact Finset.mem_union.mpr (Or.inl ih)
  | joinRight h ih => exact Finset.mem_union.mpr (Or.inr ih)
  | intersectLeft h ih => exact Finset.mem_union.mpr (Or.inl ih)
  | intersectRight h ih => exact Finset.mem_union.mpr (Or.inr ih)
  | productLeft h ih => exact Finset.mem_union.mpr (Or.inl ih)
  | productRight h ih => exact Finset.mem_union.mpr (Or.inr ih)
  | antijoinLeft h ih => exact Finset.mem_union.mpr (Or.inl ih)
  | antijoinRight h ih => exact Finset.mem_union.mpr (Or.inr ih)
  | differenceLeft h ih => exact Finset.mem_union.mpr (Or.inl ih)
  | differenceRight h ih => exact Finset.mem_union.mpr (Or.inr ih)
  | project h ih => exact ih
  | filter h ih => exact ih
  | find h ih => exact ih
  | overwriteOne h ih => exact ih
  | fpConstraint h ih => exact ih
  | fpJoin h ih => exact ih
  | exclusionLeft h ih => exact ih

/-- C7: `source_relations` returns exactly the names that occur
transitively in `Relation` leaves or as the source predicate of
`Reduce` nodes; `ForeignPredicateGround` and `UntaggedVec` leaves
contribute nothing, and the right operand of an `Exclusion` node
contributes nothing (the spec-side predicate never descends into
it). -/
theorem source_relations_spec (d : Dataflow) (r : String) :
    r ∈ d.source_relations ↔ SourceRelationSpec r d :=
  ⟨spec_of_mem_source_relations d r, mem_source_relations_of_spec⟩

/-! ## C1: enum id assignment -/

/-- `extract_value` on the first member never fails and agrees with
the claim's description. -/
theorem extract_value_none_eq (m : EnumTypeMember) :
    extract_value m none = .ok (claimedFirstId m) := by
  unfold extract_value claimedFirstId
  rcases m with ⟨name, loc, an⟩
  rcases an with _ | c
  · rfl
  · rcases c with ⟨cloc, cn⟩
    rcases cn with i | b | st
    · by_cases hi : (0 : Int) ≤ i <;> simp [hi]
    · rfl
    · rfl

/-- `extract_value` on a subsequent member agrees with the claim's
description `claimedNextId`. -/
theorem extract_value_some_eq (m : EnumTypeMember) (pm : Int) :
    extract_value m (some pm) = claimedNextId pm m := by
  unfold extract_value claimedNextId
  rcases m with ⟨name, loc, an⟩
  rcases an with _ | c
  · rfl
  · rcases c with ⟨cloc, cn⟩
    rcases cn with i | b | st
    · by_cases hi : (0 : Int) ≤ i
      · by_cases hlt : pm < i <;> simp [hi, hlt]
      · simp [hi]
    · rfl
    · rfl

/-- Lookup in an analysis extended on the right: the old entries win,
a fresh entry is found only by its own name. -/
theorem get_variable_append (a : ConstantDeclAnalysis)
    (ee : String × Loc × Option FrontType × Constant) (n : String) :
    ConstantDeclAnalysis.get_variable ⟨a.vars ++ [ee]⟩ n =
      (match a.get_variable n with
        | some v => some v
        | none => if ee.1 = n then some ee.2 else none) := by
  unfold ConstantDeclAnalysis.get_variable
  rw [List.find?_append]
  rcases h : a.vars.find? (fun x => decide (x.1 = n)) with _ | v
  · by_cases he : ee.1 = n <;> simp [List.find?, he, h]
  · simp [h]

/-- The member loop of `process_enum_type_decl` matches the claim's id
recurrence: under fresh, pairwise distinct member names it either
appends exactly the entries `(name, loc, usize, id)` given by
`claimedRestIds`, or stops with the same `EnumIDAlreadyAssigned`
error. -/
theorem process_rest_members_spec :
    ∀ (ms : List EnumTypeMember) (a : ConstantDeclAnalysis) (prev : Int),
      (∀ m ∈ ms, a.get_variable m.name = none) →
      (ms.map EnumTypeMember.name).Nodup →
      process_rest_members a prev ms =
        (match claimedRestIds prev ms with
          | .ok ids => .ok ⟨a.vars ++ (ms.zip ids).map (fun p => enumEntry p.1 p.2)⟩
          | .error e => .error e) := by
  intro ms
  induction ms with
  | nil =>
    intro a prev _ _
    simp [process_rest_members, claimedRestIds]
  | cons m rest ih =>
    intro a prev hfresh hnodup
    have hm : a.get_variable m.name = none := hfresh m (by simp)
    rcases hni : claimedNextId prev m with e | i
    · simp [process_rest_members, claimedRestIds, extract_value_some_eq, hni,
        bind, Except.bind]
    · have hpm : process_member a m i =
          .ok ⟨a.vars ++ [enumEntry m i]⟩ := by
        simp [process_member, hm, enumEntry]
      have hfresh' : ∀ m' ∈ rest,
          ConstantDeclAnalysis.get_variable ⟨a.vars ++ [enumEntry m i]⟩ m'.name = none := by
        intro m' hm'
        rw [get_variable_append]
        have h1 : a.get_variable m'.name = none := hfresh m' (by simp [hm'])
        have h2 : m.name ≠ m'.name := by
          have := hnodup
          simp [List.nodup_cons] at this
          intro heq
          exact this.1 m' hm' heq.symm
        simp [h1, enumEntry, h2]
      have hnodup' : (rest.map EnumTypeMember.name).Nodup := by
        simp [List.nodup_cons] at hnodup
        exact hnodup.2
      have hrec := ih ⟨a.vars ++ [enumEntry m i]⟩ i hfresh' hnodup'
      rcases hri : claimedRestIds i rest with e | ids
      · simp only [process_rest_members, claimedRestIds, extract_value_some_eq,
          hni, hpm, hri, bind, Except.bind]
        simp only [hri, bind, Except.bind] at hrec
        simpa using hrec
      · simp only [process_rest_members, claimedRestIds, extract_value_some_eq,
          hni, hpm, hri, bind, Except.bind]
        simp only [hri, bind, Except.bind] at hrec
        simpa [List.append_assoc] using hrec

/-- C1: `process_enum_type_decl` assigns ids exactly as the claim
states (via `claimedIds`: first member 0 unless explicitly assigned a
non-negative integer; later members take an explicit non-negative
assignment when strictly greater than the previous id, fail with
`EnumIDAlreadyAssigned` when not strictly greater, and take previous+1
without such an assignment), recording each member as a `usize`
integer constant. -/
theorem process_enum_type_decl_spec (a : ConstantDeclAnalysis)
    (etd : EnumTypeDecl)
    (hne : etd.members ≠ [])
    (hfresh : ∀ m ∈ etd.members, a.get_variable m.name = none)
    (hnodup : (etd.members.map EnumTypeMember.name).Nodup) :
    process_enum_type_decl a etd =
      some (match claimedIds etd.members with
        | .ok ids =>
          .ok ⟨a.vars ++ (etd.members.zip ids).map (fun p => enumEntry p.1 p.2)⟩
        | .error e => .error e) := by
  rcases hms : etd.members with _ | ⟨first, rest⟩
  · exact absurd hms hne
  · rw [hms] at hfresh hnodup
    have hfst : a.get_variable first.name = none := hfresh first (by simp)
    have hpm : process_member a first (claimedFirstId first) =
        .ok ⟨a.vars ++ [enumEntry first (claimedFirstId first)]⟩ := by
      simp [process_member, hfst, enumEntry]
    have hfresh' : ∀ m' ∈ rest,
        ConstantDeclAnalysis.get_variable
          ⟨a.vars ++ [enumEntry first (claimedFirstId first)]⟩ m'.name = none := by
      intro m' hm'
      rw [get_variable_append]
      have h1 : a.get_variable m'.name = none := hfresh m' (by simp [hm'])
      have h2 : first.name ≠ m'.name := by
        simp [List.nodup_cons] at hnodup
        intro heq
        exact hnodup.1 m' hm' heq.symm
      simp [h1, enumEntry, h2]
    have hnodup' : (rest.map EnumTypeMember.name).Nodup := by
      simp [List.nodup_cons] at hnodup
      exact hnodup.2
    have hrec := process_rest_members_spec rest
      ⟨a.vars ++ [enumEntry first (claimedFirstId first)]⟩
      (claimedFirstId first) hfresh' hnodup'
    rcases hri : claimedRestIds (claimedFirstId first) rest with e | ids
    · simp only [process_enum_type_decl, hms, claimedIds, extract_value_none_eq,
        hpm, hri, bind, Except.bind]
      simp only [hri, bind, Except.bind] at hrec
      simpa using hrec
    · simp only [process_enum_type_decl, hms, claimedIds, extract_value_none_eq,
        hpm, hri, bind, Except.bind]
      simp only [hri, bind, Except.bind] at hrec
      simpa [List.append_assoc] using hrec

/-- Witness for C1: `type Color = Red | Green = 5 | Blue` on a fresh
analysis yields `Red = 0`, `Green = 5`, `Blue = 6`. -/
theorem process_enum_type_decl_spec_witness :
    process_enum_type_decl ⟨[]⟩
      ⟨"Color", [⟨"Red", 1, none⟩, ⟨"Green", 2, some ⟨0, .integer 5⟩⟩,
        ⟨"Blue", 3, none⟩]⟩ =
      some (.ok ⟨[("Red", 1, some .usize, Constant.integer 0),
        ("Green", 2, some .usize, Constant.integer 5),
        ("Blue", 3, some .usize, Constant.integer 6)]⟩) := by
  have h := process_enum_type_decl_spec ⟨[]⟩
    ⟨"Color", [⟨"Red", 1, none⟩, ⟨"Green", 2, some ⟨0, .integer 5⟩⟩,
      ⟨"Blue", 3, none⟩]⟩
    (by decide) (by decide) (by decide)
  rw [h]
  rfl

/-! ## C3: disjunction boundness is the intersection of the conjuncts -/

/-- The collection loop over `conjuncts[1..]` returns exactly the
per-conjunct bounded sets when each conjunct computation succeeds. -/
theorem collectConjBoundness_of_forall2 (ls : LocalStep)
    (pb : ForeignPredicateBindings) (be : List Expr) :
    ∀ (cs : List ConjunctionContext) (Ss : List (Finset String)),
      List.Forall₂
        (fun c s => ConjunctionContext.compute_boundness ls pb be c = .ok s)
        cs Ss →
      collectConjBoundness ls pb be cs = .ok Ss := by
  intro cs
  induction cs with
  | nil =>
    intro Ss h
    cases h
    simp [collectConjBoundness]
  | cons c rest ih =>
    intro Ss h
    cases h with
    | cons hc hrest =>
      simp only [collectConjBoundness, hc, ih _ hrest, bind, Except.bind]

/-- C3: when every conjunct's boundness computation succeeds, the
bounded set returned by `DisjunctionContext::compute_boundness` is
exactly the intersection of the per-conjunct bounded sets (and the
empty set for an empty conjunct list). -/
theorem disjunction_boundness_inter (ls : LocalStep)
    (pb : ForeignPredicateBindings) (be : List Expr)
    (d : DisjunctionContext) (Ss : List (Finset String))
    (h : List.Forall₂
      (fun c s => ConjunctionContext.compute_boundness ls pb be c = .ok s)
      d.conjuncts Ss) :
    ∃ T, d.compute_boundness ls pb be = .ok T ∧
      ∀ v, v ∈ T ↔ (Ss ≠ [] ∧ ∀ s ∈ Ss, v ∈ s) := by
  rcases d with ⟨cs⟩
  simp only [DisjunctionContext.conjuncts] at h
  cases h with
  | nil =>
    refine ⟨∅, ?_, by simp⟩
    simp [DisjunctionContext.compute_boundness, DisjunctionContext.conjuncts]
  | @cons c s1 cs' Ss' hc hrest =>
    cases hrest with
    | nil =>
      refine ⟨s1, ?_, by simp⟩
      simp [DisjunctionContext.compute_boundness,
        DisjunctionContext.conjuncts, hc]
    | @cons c2 s2 cs'' Ss'' hc2 hrest2 =>
      have hcoll := collectConjBoundness_of_forall2 ls pb be (c2 :: cs'')
        (s2 :: Ss'') (List.Forall₂.cons hc2 hrest2)
      refine ⟨s1.filter (fun v => ∀ s ∈ (s2 :: Ss''), v ∈ s), ?_, ?_⟩
      · simp only [DisjunctionContext.compute_boundness,
          DisjunctionContext.conjuncts, hc, hcoll, bind, Except.bind]
      · intro v
        simp only [Finset.mem_filter, List.mem_cons]
        constructor
        · rintro ⟨hv1, hv⟩
          refine ⟨by simp, ?_⟩
          intro s hs
          rcases hs with hs | hs | hs
          · rw [hs]; exact hv1
          · exact hv s (Or.inl hs)
          · exact hv s (Or.inr hs)
        · rintro ⟨-, hv⟩
          exact ⟨hv s1 (by simp), fun s hs => hv s (by simp [hs])⟩

/-- Witness for C3: a two-conjunct disjunction (no aggregations) under
the local step that adds `x` to the bounded set in every conjunct. -/
theorem disjunction_boundness_inter_witness :
    ∃ T, DisjunctionContext.compute_boundness
        (fun _ b _ _ => .ok (insert "x" b)) ⟨[]⟩ []
        (.mk [.mk [] [] [], .mk [] [] []]) = .ok T ∧
      ∀ v, v ∈ T ↔
        ((([{"x"}, {"x"}] : List (Finset String)) ≠ []) ∧
          ∀ s ∈ ([{"x"}, {"x"}] : List (Finset String)), v ∈ s) := by
  apply disjunction_boundness_inter
  simp only [DisjunctionContext.conjuncts]
  have hc : ConjunctionContext.compute_boundness
      (fun _ b _ _ => .ok (insert "x" b)) ⟨[]⟩ [] (.mk [] [] []) =
      .ok {"x"} := by
    simp [ConjunctionContext.compute_boundness, aggUnionBoundness,
      ConjunctionContext.agg_contexts, ConjunctionContext.pos_atoms,
      bind, Except.bind]
  exact List.Forall₂.cons hc (List.Forall₂.cons hc List.Forall₂.nil)

/-! ## C2: aggregation boundness -/

/-- Erasing a list of names one by one is set difference with the
list's elements. -/
theorem foldl_erase_eq_sdiff (S : Finset String) (l : List String) :
    l.foldl (fun b n => b.erase n) S = S \ l.toFinset := by
  induction l generalizing S with
  | nil => simp
  | cons n rest ih =>
    rw [List.foldl_cons, ih (S.erase n)]
    ext x
    simp [Finset.mem_sdiff, Finset.mem_erase]
    tauto

/-- C2: when the group-by context check and the joined body (body ∧
group-by) boundness computation succeed with bounded set `S`,
`AggregationContext::compute_boundness` returns `S` minus the binding
variables plus the result and argument variables, and fails with
`ReduceArgUnbound` exactly when some argument variable is not in `S`
minus the binding variables. -/
theorem aggregation_boundness_spec (ls : LocalStep)
    (pb : ForeignPredicateBindings) (be : List Expr)
    (a : AggregationContext) (S : Finset String)
    (hgb : ∀ ctx vs g, a.group_by = some (ctx, vs, g) →
      ∃ gS, ctx.compute_boundness ls pb be = .ok gS)
    (hjb : a.joined_body.compute_boundness ls pb be = .ok S) :
    ((∀ v ∈ a.arg_vars, v.name ∈ S \ a.binding_vars.toFinset) →
      a.compute_boundness ls pb be =
        .ok ((S \ a.binding_vars.toFinset) ∪
          (a.result_vars.map Variable.name).toFinset ∪
          (a.arg_vars.map Variable.name).toFinset)) ∧
    ((∃ v ∈ a.arg_vars, v.name ∉ S \ a.binding_vars.toFinset) →
      ∃ loc, a.compute_boundness ls pb be =
        .error [BoundnessAnalysisError.ReduceArgUnbound loc]) := by
  rcases a with ⟨rv, bv, av, b, bf, jb, jbf, gb, op⟩
  simp only [AggregationContext.group_by] at hgb
  simp only [AggregationContext.joined_body] at hjb
  simp only [AggregationContext.arg_vars, AggregationContext.binding_vars,
    AggregationContext.result_vars]
  have herase : bv.foldl (fun b n => b.erase n) S = S \ bv.toFinset :=
    foldl_erase_eq_sdiff S bv
  rcases gb with _ | ⟨ctx, vs, g⟩
  · constructor
    · intro hall
      have hfind : av.find? (fun v => decide (v.name ∉ S \ bv.toFinset)) =
          none := by
        rw [List.find?_eq_none]
        intro x hx
        simp [hall x hx]
      simp only [AggregationContext.compute_boundness,
        AggregationContext.group_by, AggregationContext.joined_body,
        AggregationContext.binding_vars, AggregationContext.arg_vars,
        AggregationContext.result_vars, hjb, herase, hfind, bind,
        Except.bind, pure, Except.pure]
    · rintro ⟨v, hv, hnv⟩
      have hsome : (av.find? (fun v => decide (v.name ∉ S \ bv.toFinset))).isSome := by
        rw [List.find?_isSome]
        exact ⟨v, hv, by simp [hnv]⟩
      obtain ⟨w, hw⟩ := Option.isSome_iff_exists.mp hsome
      refine ⟨w.loc, ?_⟩
      simp only [AggregationContext.compute_boundness,
        AggregationContext.group_by, AggregationContext.joined_body,
        AggregationContext.binding_vars, AggregationContext.arg_vars,
        AggregationContext.result_vars, hjb, herase, hw, bind, Except.bind, pure, Except.pure]
  · obtain ⟨gS, hgS⟩ := hgb ctx vs g rfl
    constructor
    · intro hall
      have hfind : av.find? (fun v => decide (v.name ∉ S \ bv.toFinset)) =
          none := by
        rw [List.find?_eq_none]
        intro x hx
        simp [hall x hx]
      simp only [AggregationContext.compute_boundness,
        AggregationContext.group_by, AggregationContext.joined_body,
        AggregationContext.binding_vars, AggregationContext.arg_vars,
        AggregationContext.result_vars, hgS, hjb, herase, hfind, bind,
        Except.bind, pure, Except.pure]
    · rintro ⟨v, hv, hnv⟩
      have hsome : (av.find? (fun v => decide (v.name ∉ S \ bv.toFinset))).isSome := by
        rw [List.find?_isSome]
        exact ⟨v, hv, by simp [hnv]⟩
      obtain ⟨w, hw⟩ := Option.isSome_iff_exists.mp hsome
      refine ⟨w.loc, ?_⟩
      simp only [AggregationContext.compute_boundness,
        AggregationContext.group_by, AggregationContext.joined_body,
        AggregationContext.binding_vars, AggregationContext.arg_vars,
        AggregationContext.result_vars, hgS, hjb, herase, hw, bind,
        Except.bind, pure, Except.pure]

/-- Witness for C2: an aggregation context with no group-by, an empty
joined body (bounded set `∅`), no binding and no argument variables,
and one result variable `n`: the computation returns `{n}`. -/
theorem aggregation_boundness_spec_witness :
    AggregationContext.compute_boundness
      (fun _ b _ _ => .ok b) ⟨[]⟩ []
      (.mk [⟨0, "n"⟩] [] [] (.mk [] (.mk [])) (.atom ⟨0, "p", []⟩)
        (.mk [] (.mk [])) (.atom ⟨0, "p", []⟩) none .count) =
      .ok ((∅ \ ([] : List String).toFinset) ∪
        ([(⟨0, "n"⟩ : Variable)].map Variable.name).toFinset ∪
        (([] : List Variable).map Variable.name).toFinset) := by
  have hjb : RuleContext.compute_boundness (fun _ b _ _ => .ok b) ⟨[]⟩ []
      (.mk [] (.mk [])) = .ok ∅ := by
    simp [RuleContext.compute_boundness, RuleContext.body,
      RuleContext.head_vars, DisjunctionContext.compute_boundness,
      DisjunctionContext.conjuncts, bind, Except.bind]
  have h := aggregation_boundness_spec (fun _ b _ _ => .ok b) ⟨[]⟩ []
    (.mk [⟨0, "n"⟩] [] [] (.mk [] (.mk [])) (.atom ⟨0, "p", []⟩)
      (.mk [] (.mk [])) (.atom ⟨0, "p", []⟩) none .count) ∅
    (by intro ctx vs g hg; simp [AggregationContext.group_by] at hg)
    (by simpa [AggregationContext.joined_body] using hjb)
  exact h.1 (by simp [AggregationContext.arg_vars])

/-! ## C9: totality of `from_formula` on the normalized fragment -/

/-- A formula's size is bounded by the size of any list containing
it. -/
theorem fsize_le_fsizeList {f : Formula} :
    ∀ {fs : List Formula}, f ∈ fs → f.fsize ≤ Formula.fsizeList fs := by
  intro fs
  induction fs with
  | nil => intro h; simp at h
  | cons g rest ih =>
    intro h
    rcases List.mem_cons.mp h with h | h
    · rw [h, Formula.fsizeList]
      omega
    · have := ih h
      rw [Formula.fsizeList]
      omega

/-- Members of a normalized list are normalized. -/
theorem normalized_of_mem_normalizedList {fs : List Formula}
    (h : Formula.normalizedList fs = true) :
    ∀ f ∈ fs, f.normalized = true := by
  induction fs with
  | nil => intro f hf; simp at hf
  | cons g rest ih =>
    rw [Formula.normalizedList, Bool.and_eq_true] at h
    intro f hf
    rcases List.mem_cons.mp hf with hf | hf
    · rw [hf]; exact h.1
    · exact ih h.2 f hf

/-- The argument loop of `from_formula` succeeds when `from_formula`
succeeds on every argument. -/
theorem fromFormulaList_isSome {fs : List Formula}
    (h : ∀ f ∈ fs, (DisjunctionContext.from_formula f).isSome) :
    (fromFormulaList fs).isSome := by
  induction fs with
  | nil => simp [fromFormulaList]
  | cons f rest ih =>
    obtain ⟨d, hd⟩ := Option.isSome_iff_exists.mp (h f (by simp))
    obtain ⟨ds, hds⟩ :=
      Option.isSome_iff_exists.mp (ih (fun g hg => h g (by simp [hg])))
    simp [fromFormulaList, hd, hds]

/-- `from_qualified` succeeds when `from_formula` succeeds on the
body. -/
theorem from_qualified_isSome (bs : List VariableBinding) (args : List Variable)
    {body : Formula} (h : (DisjunctionContext.from_formula body).isSome) :
    (RuleContext.from_qualified bs args body).isSome := by
  obtain ⟨d, hd⟩ := Option.isSome_iff_exists.mp h
  simp [RuleContext.from_qualified, hd]

/-- Strong-induction core of C9: `from_formula` succeeds on every
normalized formula. -/
theorem from_formula_total_aux :
    ∀ n : Nat, ∀ f : Formula, f.fsize ≤ n → f.normalized = true →
      (DisjunctionContext.from_formula f).isSome := by
  intro n
  induction n using Nat.strong_induction_on with
  | _ n ih =>
    intro f hsize hnorm
    match f with
    | .disjunction loc args =>
      rw [Formula.normalized] at hnorm
      rw [Formula.fsize] at hsize
      have hargs : ∀ g ∈ args, (DisjunctionContext.from_formula g).isSome := by
        intro g hg
        have h1 : g.fsize ≤ Formula.fsizeList args := fsize_le_fsizeList hg
        exact ih g.fsize (by omega) g le_rfl
          (normalized_of_mem_normalizedList hnorm g hg)
      obtain ⟨ds, hds⟩ := Option.isSome_iff_exists.mp (fromFormulaList_isSome hargs)
      simp [DisjunctionContext.from_formula, hds]
    | .conjunction loc args =>
      rw [Formula.normalized] at hnorm
      rw [Formula.fsize] at hsize
      have hargs : ∀ g ∈ args, (DisjunctionContext.from_formula g).isSome := by
        intro g hg
        have h1 : g.fsize ≤ Formula.fsizeList args := fsize_le_fsizeList hg
        exact ih g.fsize (by omega) g le_rfl
          (normalized_of_mem_normalizedList hnorm g hg)
      obtain ⟨ds, hds⟩ := Option.isSome_iff_exists.mp (fromFormulaList_isSome hargs)
      simp [DisjunctionContext.from_formula, hds]
    | .implies loc l r => rw [Formula.normalized] at hnorm; exact absurd hnorm (by simp)
    | .atom a => simp [DisjunctionContext.from_formula]
    | .negAtom a => simp [DisjunctionContext.from_formula]
    | .constraint c => simp [DisjunctionContext.from_formula]
    | .forallExistsReduce loc =>
      rw [Formula.normalized] at hnorm; exact absurd hnorm (by simp)
    | .reduce (.mk loc l op bs as_ body gb) =>
      rcases gb with _ | ⟨gbs, g⟩
      · simp only [Formula.normalized, Reduce.normalizedRed,
          Bool.and_eq_true] at hnorm
        simp only [Formula.fsize, Reduce.rsize] at hsize
        have hbody : (DisjunctionContext.from_formula body).isSome :=
          ih body.fsize (by omega) body le_rfl hnorm.1
        have hq1 := from_qualified_isSome bs as_ hbody
        obtain ⟨rc1, hrc1⟩ := Option.isSome_iff_exists.mp hq1
        simp [DisjunctionContext.from_formula, ConjunctionContext.from_reduce,
          AggregationContext.from_reduce, Reduce.bindings, Reduce.args,
          Reduce.body, Reduce.group_by, Reduce.left, Reduce.operator, hrc1]
      · simp only [Formula.normalized, Reduce.normalizedRed,
          Bool.and_eq_true] at hnorm
        simp only [Formula.fsize, Reduce.rsize] at hsize
        have hbody : (DisjunctionContext.from_formula body).isSome :=
          ih body.fsize (by omega) body le_rfl hnorm.1
        have hg : (DisjunctionContext.from_formula g).isSome :=
          ih g.fsize (by omega) g le_rfl hnorm.2
        have hjoined : (DisjunctionContext.from_formula
            (Formula.conjunction 0 [body, g])).isSome := by
          have hn : Formula.normalized (Formula.conjunction 0 [body, g]) = true := by
            simp only [Formula.normalized, Formula.normalizedList,
              Bool.and_eq_true]
            simp [hnorm.1, hnorm.2]
          have hs : (Formula.conjunction 0 [body, g]).fsize ≤ n - 1 := by
            simp only [Formula.fsize, Formula.fsizeList]
            omega
          exact ih (n - 1) (by omega) _ hs hn
        have hq1 := from_qualified_isSome bs as_ hbody
        obtain ⟨rc1, hrc1⟩ := Option.isSome_iff_exists.mp hq1
        have hq2 := from_qualified_isSome bs as_ hjoined
        obtain ⟨rc2, hrc2⟩ := Option.isSome_iff_exists.mp hq2
        have hq3 := from_qualified_isSome gbs [] hg
        obtain ⟨rc3, hrc3⟩ := Option.isSome_iff_exists.mp hq3
        simp [DisjunctionContext.from_formula, ConjunctionContext.from_reduce,
          AggregationContext.from_reduce, Reduce.bindings, Reduce.args,
          Reduce.body, Reduce.group_by, Reduce.left, Reduce.operator,
          hrc1, hrc2, hrc3]

/-- C9: on formulas built only from disjunction, conjunction, atom,
negated-atom, constraint and reduce constructors (recursively, i.e.
with `Implies` and `ForallExistsReduce` rewritten away by
normalization), `DisjunctionContext::from_formula` is total — neither
panic branch is reachable — and produces a
disjunction-of-conjunctions context. -/
theorem from_formula_total (f : Formula) (hf : f.normalized = true) :
    (DisjunctionContext.from_formula f).isSome :=
  from_formula_total_aux f.fsize f le_rfl hf

/-- Witness for C9: `from_formula` succeeds on a single atom. -/
theorem from_formula_total_witness :
    (DisjunctionContext.from_formula (.atom ⟨0, "p", []⟩)).isSome :=
  from_formula_total (.atom ⟨0, "p", []⟩) (by rw [Formula.normalized])

/-! ## C5: `dynamic_count` subset enumeration -/

/-- Membership in `combinations l k`: exactly the sublists of `l` of
length `k`. -/
theorem mem_combinations {α : Type} :
    ∀ (l : List α) (k : Nat) (s : List α),
      s ∈ combinations l k ↔ s.Sublist l ∧ s.length = k := by
  intro l
  induction l with
  | nil =>
    intro k s
    cases k with
    | zero =>
      simp only [combinations, List.mem_singleton, List.sublist_nil]
      constructor
      · rintro rfl; exact ⟨rfl, rfl⟩
      · rintro ⟨rfl, -⟩; rfl
    | succ k =>
      simp only [combinations, List.not_mem_nil, false_iff, not_and,
        List.sublist_nil]
      rintro rfl
      simp
  | cons x xs ih =>
    intro k s
    cases k with
    | zero =>
      simp only [combinations, List.mem_singleton]
      constructor
      · rintro rfl; exact ⟨List.nil_sublist _, rfl⟩
      · rintro ⟨-, hlen⟩
        exact List.length_eq_zero.mp hlen
    | succ k =>
      simp only [combinations, List.mem_append, List.mem_map]
      constructor
      · rintro (⟨t, ht, rfl⟩ | h)
        · have h1 := (ih k t).mp ht
          exact ⟨List.cons_sublist_cons.mpr h1.1, by simp [h1.2]⟩
        · have h1 := (ih (k + 1) s).mp h
          exact ⟨h1.1.trans (List.sublist_cons_self x xs), h1.2⟩
      · rintro ⟨hsub, hlen⟩
        rcases List.sublist_cons_iff.mp hsub with h | ⟨r, rfl, hr⟩
        · exact Or.inr ((ih (k + 1) s).mpr ⟨h, hlen⟩)
        · exact Or.inl ⟨r, (ih k r).mpr ⟨hr, by simpa using hlen⟩, rfl⟩

/-- `combinations` of a duplicate-free list has no duplicates. -/
theorem nodup_combinations {α : Type} :
    ∀ (l : List α), l.Nodup → ∀ k, (combinations l k).Nodup := by
  intro l
  induction l with
  | nil =>
    intro _ k
    cases k <;> simp [combinations]
  | cons x xs ih =>
    intro hnd k
    rw [List.nodup_cons] at hnd
    cases k with
    | zero => simp [combinations]
    | succ k =>
      rw [combinations]
      refine List.Nodup.append ?_ (ih hnd.2 (k + 1)) ?_
      · exact (ih hnd.2 k).map (fun t1 t2 h => by injection h)
      · intro s hs1 hs2
        simp only [List.mem_map] at hs1
        obtain ⟨t, ht, rfl⟩ := hs1
        have h2 := (mem_combinations xs (k + 1) (x :: t)).mp hs2
        exact hnd.1 (h2.1.subset (by simp))

/-- `combinations l k` has `choose (length l) k` elements. -/
theorem length_combinations {α : Type} :
    ∀ (l : List α) (k : Nat), (combinations l k).length = l.length.choose k := by
  intro l
  induction l with
  | nil =>
    intro k
    cases k <;> simp [combinations]
  | cons x xs ih =>
    intro k
    cases k with
    | zero => simp [combinations]
    | succ k =>
      simp [combinations, ih, Nat.choose_succ_succ]

/-- Membership in the powerset: exactly the sublists. -/
theorem mem_powerset {α : Type} (l : List α) (s : List α) :
    s ∈ powerset l ↔ s.Sublist l := by
  simp only [powerset, List.mem_flatMap, List.mem_range]
  constructor
  · rintro ⟨k, -, hs⟩
    exact ((mem_combinations l k s).mp hs).1
  · intro hs
    exact ⟨s.length, by have := hs.length_le; omega,
      (mem_combinations l s.length s).mpr ⟨hs, rfl⟩⟩

/-- The powerset of a duplicate-free list enumerates each sublist
exactly once. -/
theorem nodup_powerset {α : Type} (l : List α) (h : l.Nodup) :
    (powerset l).Nodup := by
  rw [powerset, List.nodup_flatMap]
  refine ⟨fun k _ => nodup_combinations l h k, ?_⟩
  have hdisj : ∀ i j : Nat, i ≠ j →
      List.Disjoint (combinations l i) (combinations l j) := by
    intro i j hij s hsi hsj
    have h1 := (mem_combinations l i s).mp hsi
    have h2 := (mem_combinations l j s).mp hsj
    exact hij (h1.2 ▸ h2.2 ▸ rfl)
  exact (List.nodup_range _).imp (fun hij => hdisj _ _ hij)

/-- Bridging list sums over `List.range` to `Finset.range` sums. -/
theorem list_sum_map_range (f : Nat → Nat) :
    ∀ m : Nat, ((List.range m).map f).sum = ∑ i ∈ Finset.range m, f i := by
  intro m
  induction m with
  | zero => simp
  | succ m ih =>
    rw [List.range_succ, List.map_append, List.sum_append,
      Finset.sum_range_succ, ih]
    simp

/-- The powerset of `l` has `2 ^ length l` elements. -/
theorem length_powerset {α : Type} (l : List α) :
    (powerset l).length = 2 ^ l.length := by
  rw [powerset, List.length_flatMap]
  have hcomp : List.length ∘ combinations l = fun k => l.length.choose k :=
    funext (length_combinations l)
  rw [hcomp, list_sum_map_range, Nat.sum_range_choose]

/-- C5: `dynamic_count` of the (differentiable) top-bottom-k-clauses
provenance returns `[(0, one)]` on an empty batch; on a non-empty
batch of `n` elements it returns `2 ^ n` elements, one per subset of
the batch indices (a duplicate-free enumeration of the sublists of
`range n`), each carrying the subset's size and the tag of that chosen
subset; and the differentiable version is the same function. -/
theorem tbk_dynamic_count_spec {Tup Tag : Type} (one : Tag)
    (tos : List Tag → List Nat → Tag) (batch : List (Tup × Tag)) :
    (batch = [] → dynamic_count one tos batch = [(0, one)]) ∧
    (batch ≠ [] →
      ∃ enum : List (List Nat),
        dynamic_count one tos batch =
          enum.map (fun s => (s.length, tos (batch.map Prod.snd) s)) ∧
        enum.length = 2 ^ batch.length ∧
        enum.Nodup ∧
        (∀ s, s ∈ enum ↔ s.Sublist (List.range batch.length))) ∧
    diff_dynamic_count one tos batch = dynamic_count one tos batch := by
  refine ⟨?_, ?_, rfl⟩
  · rintro rfl; rfl
  · intro h
    refine ⟨powerset (List.range batch.length), ?_, ?_,
      nodup_powerset _ (List.nodup_range _), fun s => mem_powerset _ s⟩
    · simp [dynamic_count, List.isEmpty_iff, h]
    · rw [length_powerset]
      simp

/-- Witness for C5: a concrete two-element batch produces `2 ^ 2`
elements. -/
theorem tbk_dynamic_count_spec_witness :
    (@dynamic_count Unit Nat 1
      (fun tags s => (s.map (fun i => tags.getD i 0)).sum)
      [((), 2), ((), 3)]).length = 2 ^ 2 := by
  obtain ⟨enum, heq, hlen, -, -⟩ :=
    (tbk_dynamic_count_spec 1
      (fun tags s => (s.map (fun i => tags.getD i 0)).sum)
      [((), 2), ((), 3)]).2.1 (by simp)
  rw [heq, List.length_map, hlen]
  rfl

end Scallop
